import Mathlib

/-!
Verification of the article normalization pipeline
(`scripts/normalize_articles.py`).

The embedding models the pipeline over a document collection:

* text values are lists of characters (`Text`);
* a stored document (`Doc`) carries an identifier, an optional `text`
  field (which may hold a non-string value, `BVal.other`), and an
  optional list of revisions;
* the external OpenAI-compatible service is an oracle
  `Text → ApiResult`: the pipeline sends the stripped document text and
  receives either a 200 response with a message content, a non-200
  status, a malformed body, or a timeout;
* MongoDB operations are modelled over `List Doc`: `find` + `sort` is
  `selectDocs`, and `update_one` with a `push` of a revision is
  `applyWrite` (it updates the first document with the matching id);
* the asynchronous driver `process_documents` is modelled as a
  sequential loop (`procLoop`) mirroring the batching, limit and
  progress-printing logic; the semaphore discipline of the concurrent
  dispatch is modelled separately as a small-step transition system.
-/

namespace StructuredArticles

/-- Characters treated as whitespace by the embedding; this models the
whitespace class used both by Python `str.strip()` and by the regex
class matched against the stored text (space, tab, newline, carriage
return, vertical tab, form feed). -/
def isWs (c : Char) : Bool :=
  c == ' ' || c == '\t' || c == '\n' || c == '\r' ||
  c == Char.ofNat 11 || c == Char.ofNat 12

/-- Texts are lists of characters. -/
abbrev Text := List Char

/-- Removal of trailing whitespace (Python `str.rstrip()`). -/
def rstripChars (t : Text) : Text :=
  ((t.reverse).dropWhile isWs).reverse

/-- Removal of leading and trailing whitespace (Python `str.strip()`). -/
def stripChars (t : Text) : Text :=
  (rstripChars t).dropWhile isWs

/-- A stored BSON value for the `text` field: either a string or some
non-string value, carried together with its Python `str()` rendering. -/
inductive BVal where
  | str (s : Text)
  | other (sval : Text)
deriving DecidableEq

/-- A revision entry, as produced by `build_revision` (source lines
154-164). -/
structure Revision where
  revision_type : String
  normalized_at : Nat
  source_fields : List String
  text : Text
deriving DecidableEq

/-- A stored document: identifier, optional `text` field, optional
`revisions` array. Auxiliary descriptive fields are never read or
written by the pipeline and are omitted. -/
structure Doc where
  id : Nat
  text : Option BVal
  revisions : Option (List Revision)
deriving DecidableEq

/-- Python `str(doc.get('text', ''))` (source line 169): an absent field
renders as the empty string, a string renders as itself, any other
value renders as its `str()` form. -/
def textValue : Option BVal → Text
  | none => []
  | some (BVal.str s) => s
  | some (BVal.other v) => v

/-- Whether a revision list contains an entry of type `normalized`;
models the `elemMatch` clause of the selection query (line 225). -/
def hasNormalizedRevision (rs : List Revision) : Bool :=
  rs.any (fun r => r.revision_type == "normalized")

/-- The selection query built in `process_documents` (lines 219-232):
the `text` field must hold a string containing a non-whitespace
character, the `revisions` array must be absent or contain no entry of
type `normalized`, and, when a resume bound is given, the identifier
must be strictly greater than the bound. -/
def matchesQuery (resumeFrom : Option Nat) (d : Doc) : Bool :=
  (match d.text with
   | some (BVal.str s) => s.any (fun c => !(isWs c))
   | _ => false)
  &&
  (match d.revisions with
   | none => true
   | some rs => !(hasNormalizedRevision rs))
  &&
  (match resumeFrom with
   | some x => decide (x < d.id)
   | none => true)

/-- Sorting key of the cursor (`sort('_id', 1)`, line 237). -/
def leById (a b : Doc) : Prop := a.id ≤ b.id

instance : DecidableRel leById := fun a b => Nat.decLe a.id b.id

instance : IsTotal Doc leById := ⟨fun a b => Nat.le_total a.id b.id⟩

instance : IsTrans Doc leById := ⟨fun _ _ _ h1 h2 => Nat.le_trans h1 h2⟩

/-- The record selector: `collection.find(query).sort('_id', 1)`
(source lines 219-237), over a collection modelled as a list of
documents. -/
def selectDocs (coll : List Doc) (resumeFrom : Option Nat) : List Doc :=
  List.insertionSort leById (coll.filter (matchesQuery resumeFrom))

/-- Outcome of one call to the external service, as observed by
`normalize_text_via_openai_compatible`: a 200 response carrying the
first choice's message content, a non-200 status with its body, a
response whose shape lacks the expected path, or a timeout. -/
inductive ApiResult where
  | ok (content : Text)
  | badStatus (code : Nat) (body : Text)
  | malformed
  | timeout
deriving DecidableEq

/-- `normalize_text_via_openai_compatible` (source lines 76-133) after
abstracting the HTTP exchange into an `ApiResult`: a 200 response
yields the message content with surrounding whitespace stripped
(line 127); every other outcome raises, which the embedding renders as
an error value. -/
def normalize_text_via_openai_compatible (r : ApiResult) : Except String Text :=
  match r with
  | ApiResult.ok content => Except.ok (stripChars content)
  | ApiResult.badStatus _ _ => Except.error "OpenAI-compatible API error"
  | ApiResult.malformed => Except.error "Unexpected API response format"
  | ApiResult.timeout => Except.error "Request timeout"

/-- Whether an API outcome is a failure (anything but a 200 response). -/
def apiFailed (r : ApiResult) : Bool :=
  match r with
  | ApiResult.ok _ => false
  | _ => true

/-- The content carried by a 200 response (empty for failures). -/
def apiContent (r : ApiResult) : Text :=
  match r with
  | ApiResult.ok content => content
  | _ => []

/-- The replacement table of `normalize_quote_characters` (source lines
143-147), in insertion order; the duplicated double-quote key of the
source dictionary collapses to a single entry. `Char.ofNat 34` is the
straight ASCII double quote and `Char.ofNat 39` the straight ASCII
single quote. -/
def quoteReplacements : List (Char × Char) :=
  [ ('“', Char.ofNat 34), ('”', Char.ofNat 34), ('„', Char.ofNat 34),
    ('‟', Char.ofNat 34), ('«', Char.ofNat 34), ('»', Char.ofNat 34),
    ('＂', Char.ofNat 34),
    ('‘', Char.ofNat 39), ('’', Char.ofNat 39), ('‚', Char.ofNat 39),
    ('‛', Char.ofNat 39), ('‹', Char.ofNat 39), ('›', Char.ofNat 39),
    ('＇', Char.ofNat 39) ]

/-- Python `out.replace(src, dst)` for one-character patterns. -/
def replaceChar (t : Text) (src dst : Char) : Text :=
  t.map (fun c => if c = src then dst else c)

/-- `normalize_quote_characters` (source lines 136-151): the guard on
empty input followed by one `replace` per table entry. -/
def normalize_quote_characters (t : Text) : Text :=
  if t = [] then t
  else quoteReplacements.foldl (fun out p => replaceChar out p.1 p.2) t

/-- The per-character effect of folding the replacement chain. -/
def qstep (c : Char) : Char :=
  quoteReplacements.foldl (fun x p => if x = p.1 then p.2 else x) c

/-- `build_revision` (source lines 154-164): a fresh revision of type
`normalized` carrying the normalization timestamp, the source field
list `['text']` and the normalized text. The original document is
accepted and ignored, as in the source. -/
def build_revision (_original : Doc) (normalized : Text) (now : Nat) : Revision :=
  { revision_type := "normalized"
    normalized_at := now
    source_fields := ["text"]
    text := normalized }

/-- A pending `update_one` call: the identifier filter and the revision
to push. -/
structure WriteOp where
  targetId : Nat
  rev : Revision
deriving DecidableEq

/-- Outcome of `process_single_document`: the returned boolean, the
revision built on success (printed in dry-run mode, pushed otherwise),
and the storage writes issued. -/
structure SingleResult where
  ok : Bool
  builtRev : Option Revision
  writes : List WriteOp
deriving DecidableEq

/-- The text sent to the external service for a document: the
document's rendered `text` field with surrounding whitespace stripped
(source line 169). -/
def requestText (d : Doc) : Text :=
  stripChars (textValue d.text)

/-- `process_single_document` (source lines 167-197): skip documents
whose stripped text is empty; call the service on the stripped text; on
failure return `False` with no write; on success post-process with the
quote normalizer, build a revision, and either (dry-run) only report it
or (live) push it onto the document's revision list by identifier. -/
def process_single_document (oracle : Text → ApiResult) (dryRun : Bool)
    (now : Nat) (d : Doc) : SingleResult :=
  let text := requestText d
  if text = [] then ⟨false, none, []⟩
  else
    match normalize_text_via_openai_compatible (oracle text) with
    | Except.error _ => ⟨false, none, []⟩
    | Except.ok normalized0 =>
      let normalized := normalize_quote_characters normalized0
      let revision := build_revision d normalized now
      if dryRun then ⟨true, some revision, []⟩
      else ⟨true, some revision, [⟨d.id, revision⟩]⟩

/-- The effect of one revision push on one document: the revision is
appended to the revision list, which is created when absent. -/
def pushDoc (d : Doc) (rev : Revision) : Doc :=
  { d with revisions := some ((d.revisions.getD []) ++ [rev]) }

/-- The `push` update of `collection.update_one` (source lines 182-195):
append the revision to the revision list (creating it when absent) of
the first document whose identifier matches. -/
def applyWrite (coll : List Doc) (w : WriteOp) : List Doc :=
  match coll with
  | [] => []
  | d :: rest =>
    if d.id = w.targetId then pushDoc d w.rev :: rest
    else d :: applyWrite rest w

/-- Sequential application of a list of writes. -/
def applyWrites (coll : List Doc) (ws : List WriteOp) : List Doc :=
  ws.foldl applyWrite coll

/-- `process_documents_batch` (source lines 200-214): run
`process_single_document` over each document of the batch, count the
`True` results, and apply the issued writes to the collection. The
concurrent tasks write to independent documents; the model applies the
writes in task order. -/
def process_documents_batch (oracle : Text → ApiResult) (dryRun : Bool)
    (now : Nat) (docs : List Doc) (coll : List Doc) :
    Nat × List Doc × List WriteOp :=
  let results := docs.map (process_single_document oracle dryRun now)
  let ws := (results.map SingleResult.writes).flatten
  (results.countP SingleResult.ok, applyWrites coll ws, ws)

/-- Observable outcome of a run of `process_documents`: the final
success count, the final collection state, the writes issued, the
running totals printed by the in-loop progress line (source line 256),
and the running totals at which each full-size group completed. -/
structure RunResult where
  processed : Nat
  finalColl : List Doc
  writes : List WriteOp
  progressReports : List Nat
  groupTotals : List Nat
deriving DecidableEq

/-- The loop guard `limit is not None and processed >= limit`
(source line 244). -/
def limitReached (limit : Option Nat) (processed : Nat) : Bool :=
  match limit with
  | some l => decide (l ≤ processed)
  | none => false

/-- The trailing `if batch:` flush after the loop (source lines
259-261); it prints no progress line and marks no full group. -/
def finishRun (oracle : Text → ApiResult) (dryRun : Bool) (now : Nat)
    (batch : List Doc) (processed : Nat) (coll : List Doc)
    (ws : List WriteOp) (evs gts : List Nat) : RunResult :=
  if batch = [] then ⟨processed, coll, ws, evs, gts⟩
  else
    let r := process_documents_batch oracle dryRun now batch coll
    ⟨processed + r.1, r.2.1, ws ++ r.2.2, evs, gts⟩

/-- The driver loop of `process_documents` (source lines 242-261):
draw documents in selection order, breaking once the limit is reached;
flush a batch whenever it holds at least `bs` documents, adding the
batch's success count to `processed` and printing the running total
when it is a positive multiple of `bs`; after the loop flush the
leftover batch. -/
def procLoop (oracle : Text → ApiResult) (dryRun : Bool) (now bs : Nat)
    (limit : Option Nat) :
    List Doc → List Doc → Nat → List Doc → List WriteOp → List Nat →
      List Nat → RunResult
  | [], batch, processed, coll, ws, evs, gts =>
    finishRun oracle dryRun now batch processed coll ws evs gts
  | d :: rest, batch, processed, coll, ws, evs, gts =>
    if limitReached limit processed then
      finishRun oracle dryRun now batch processed coll ws evs gts
    else
      let batch' := batch ++ [d]
      if bs ≤ batch'.length then
        let r := process_documents_batch oracle dryRun now batch' coll
        let processed' := processed + r.1
        let evs' := evs ++ (if 0 < bs ∧ processed' % bs = 0
          then [processed'] else [])
        procLoop oracle dryRun now bs limit rest [] processed' r.2.1
          (ws ++ r.2.2) evs' (gts ++ [processed'])
      else
        procLoop oracle dryRun now bs limit rest batch' processed coll ws
          evs gts

/-- `process_documents` (source lines 217-269): select the eligible
documents and drive the batching loop over them, starting from the
given collection state with empty accumulators. -/
def process_documents (coll : List Doc) (oracle : Text → ApiResult)
    (limit : Option Nat) (resumeFrom : Option Nat) (bs : Nat)
    (dryRun : Bool) (now : Nat) : RunResult :=
  procLoop oracle dryRun now bs limit (selectDocs coll resumeFrom) [] 0 coll
    [] [] []

/-- A concrete document used by witnesses. -/
def docW : Doc := Doc.mk 1 (some (BVal.str ['h', 'i'])) none
/-- A concrete always-successful oracle used by witnesses; the response
content carries surrounding whitespace to exercise the strip step. -/
def okOracle : Text → ApiResult :=
  fun _ => ApiResult.ok [' ', 'o', 'k', ' ']
/-- A concrete oracle failing exactly on the text of the first witness
batch document. -/
def failOracle : Text → ApiResult :=
  fun t => if t = ['b'] then ApiResult.timeout else ApiResult.ok ['x']
/-- The witness document on which `failOracle` fails. -/
def docB : Doc := Doc.mk 1 (some (BVal.str ['b'])) none
/-- The sibling witness document on which `failOracle` succeeds. -/
def docG : Doc := Doc.mk 2 (some (BVal.str ['g'])) none

/-- The write issued for a document when the service call succeeds:
the response content is stripped, quote-normalized, wrapped into a
revision and addressed to the document's identifier. -/
def okWrite (oracle : Text → ApiResult) (now : Nat) (d : Doc) : WriteOp :=
  ⟨d.id, build_revision d
    (normalize_quote_characters
      (stripChars (apiContent (oracle (requestText d))))) now⟩

/-- All writes issued while processing the given documents in order. -/
def singleWrites (oracle : Text → ApiResult) (dr : Bool) (now : Nat)
    (docs : List Doc) : List WriteOp :=
  ((docs.map (process_single_document oracle dr now)).map
    SingleResult.writes).flatten

/-- The number of `True` results over the given documents. -/
def singleSucc (oracle : Text → ApiResult) (dr : Bool) (now : Nat)
    (docs : List Doc) : Nat :=
  (docs.map (process_single_document oracle dr now)).countP SingleResult.ok

/-- The first pending write addressed to a document, if any. -/
def writeFor (ws : List WriteOp) (x : Doc) : Option WriteOp :=
  ws.find? (fun w => w.targetId == x.id)

/-- The cumulative effect of a write list on one document (meaningful
when each identifier is targeted at most once). -/
def applyAllTo (ws : List WriteOp) (x : Doc) : Doc :=
  match writeFor ws x with
  | some w => pushDoc x w.rev
  | none => x

/-- Phase of one per-document task of the run with respect to the
admission gate: not yet admitted, inside the `async with semaphore`
region (its service call may be in flight), or done. -/
inductive TaskPhase where
  | pending
  | running
  | finished
deriving DecidableEq

/-- State of the admission gate: the semaphore's available permits and
the phases of all tasks spawned so far during the run. -/
structure SemState where
  avail : Nat
  tasks : List TaskPhase
deriving DecidableEq

/-- Number of tasks currently inside the semaphore region; every
in-flight service call belongs to such a task (source lines 204-207). -/
def inFlight (s : SemState) : Nat :=
  s.tasks.countP (fun t => t == TaskPhase.running)

/-- Small-step semantics of the admission gate of
`process_documents_batch` (source lines 200-214): spawning a group adds
pending tasks without touching the semaphore (the same semaphore object,
created once at source line 240, is passed to every group); a pending
task enters the region only by consuming a permit; a running task
leaves the region and returns its permit. -/
inductive SemStep : SemState → SemState → Prop where
  | spawn (s : SemState) (k : Nat) :
      SemStep s ⟨s.avail, s.tasks ++ List.replicate k TaskPhase.pending⟩
  | acquire (s : SemState) (i a : Nat)
      (hi : s.tasks[i]? = some TaskPhase.pending) (ha : s.avail = a + 1) :
      SemStep s ⟨a, s.tasks.set i TaskPhase.running⟩
  | release (s : SemState) (i : Nat)
      (hi : s.tasks[i]? = some TaskPhase.running) :
      SemStep s ⟨s.avail + 1, s.tasks.set i TaskPhase.finished⟩

/-- Initial state of a run: `asyncio.Semaphore(concurrency)` with all
`n` tasks of the run still pending (source line 240). -/
def initSem (conc n : Nat) : SemState :=
  ⟨conc, List.replicate n TaskPhase.pending⟩

end StructuredArticles

namespace StructuredArticles

lemma foldl_replaceChar_eq_map (ps : List (Char × Char)) (t : Text) :
    ps.foldl (fun out p => replaceChar out p.1 p.2) t
      = t.map (fun c => ps.foldl (fun x p => if x = p.1 then p.2 else x) c) := by
  induction ps generalizing t with
  | nil => simp
  | cons p ps ih =>
    simp only [List.foldl_cons]
    rw [ih (replaceChar t p.1 p.2)]
    simp [replaceChar, List.map_map, Function.comp]

lemma normalize_quote_characters_eq_map (t : Text) :
    normalize_quote_characters t = t.map qstep := by
  unfold normalize_quote_characters qstep
  split
  · subst t; simp
  · exact foldl_replaceChar_eq_map quoteReplacements t

lemma foldq_of_no_match (ps : List (Char × Char)) (c : Char)
    (h : ∀ p ∈ ps, c ≠ p.1) :
    ps.foldl (fun x p => if x = p.1 then p.2 else x) c = c := by
  induction ps with
  | nil => rfl
  | cons p ps ih =>
    simp only [List.foldl_cons]
    rw [if_neg (h p (List.mem_cons_self p ps))]
    exact ih (fun q hq => h q (List.mem_cons_of_mem p hq))

lemma foldq_result (ps : List (Char × Char)) (c : Char) :
    ps.foldl (fun x p => if x = p.1 then p.2 else x) c = c ∨
      ∃ p ∈ ps, ps.foldl (fun x p => if x = p.1 then p.2 else x) c = p.2 := by
  induction ps generalizing c with
  | nil => exact Or.inl rfl
  | cons p ps ih =>
    simp only [List.foldl_cons]
    by_cases hc : c = p.1
    · rw [if_pos hc]
      rcases ih p.2 with h | ⟨q, hq, h⟩
      · exact Or.inr ⟨p, List.mem_cons_self p ps, h⟩
      · exact Or.inr ⟨q, List.mem_cons_of_mem p hq, h⟩
    · rw [if_neg hc]
      rcases ih c with h | ⟨q, hq, h⟩
      · exact Or.inl h
      · exact Or.inr ⟨q, List.mem_cons_of_mem p hq, h⟩

lemma dsts_check :
    (quoteReplacements.all fun p =>
      quoteReplacements.all fun q => !(p.2 == q.1)) = true := by
  rfl

lemma dsts_are_not_srcs :
    ∀ p ∈ quoteReplacements, ∀ q ∈ quoteReplacements, p.2 ≠ q.1 := by
  intro p hp q hq
  have h := dsts_check
  rw [List.all_eq_true] at h
  have h1 := h p hp
  rw [List.all_eq_true] at h1
  simpa using h1 q hq

lemma qstep_idem (c : Char) : qstep (qstep c) = qstep c := by
  rcases foldq_result quoteReplacements c with h | ⟨p, hp, h⟩
  · unfold qstep
    rw [h, h]
  · unfold qstep
    rw [h]
    exact foldq_of_no_match quoteReplacements p.2 (dsts_are_not_srcs p hp)

lemma process_single_dryRun_writes (oracle : Text → ApiResult) (now : Nat)
    (d : Doc) : (process_single_document oracle true now d).writes = [] := by
  unfold process_single_document
  by_cases h : requestText d = []
  · simp [h]
  · simp only [if_neg h]
    cases horacle : normalize_text_via_openai_compatible (oracle (requestText d)) with
    | error e => simp [horacle]
    | ok t0 => simp [horacle]

lemma batch_dryRun_flatten (oracle : Text → ApiResult) (now : Nat)
    (docs : List Doc) :
    ((docs.map (process_single_document oracle true now)).map
      SingleResult.writes).flatten = [] := by
  induction docs with
  | nil => rfl
  | cons d t ih =>
    simp only [List.map_cons, List.flatten_cons,
      process_single_dryRun_writes, List.nil_append]
    exact ih

lemma batch_dryRun (oracle : Text → ApiResult) (now : Nat)
    (docs coll : List Doc) :
    process_documents_batch oracle true now docs coll
      = ((docs.map (process_single_document oracle true now)).countP
          SingleResult.ok, coll, []) := by
  simp only [process_documents_batch, batch_dryRun_flatten]
  rfl

lemma procLoop_dryRun (oracle : Text → ApiResult) (now bs : Nat)
    (limit : Option Nat) (remaining : List Doc) :
    ∀ batch processed coll ws evs gts,
      (procLoop oracle true now bs limit remaining batch processed coll ws
        evs gts).finalColl = coll ∧
      (procLoop oracle true now bs limit remaining batch processed coll ws
        evs gts).writes = ws := by
  induction remaining with
  | nil =>
    intro batch processed coll ws evs gts
    unfold procLoop finishRun
    by_cases hb : batch = []
    · simp [hb]
    · simp [hb, batch_dryRun]
  | cons d rest ih =>
    intro batch processed coll ws evs gts
    unfold procLoop
    by_cases hl : limitReached limit processed = true
    · rw [if_pos hl]
      unfold finishRun
      by_cases hb : batch = []
      · simp [hb]
      · simp [hb, batch_dryRun]
    · rw [if_neg hl]
      by_cases hbs : bs ≤ (batch ++ [d]).length
      · simp only [if_pos hbs, batch_dryRun, List.append_nil]
        exact ih [] _ coll ws _ _
      · simp only [if_neg hbs]
        exact ih (batch ++ [d]) processed coll ws evs gts

/-- C6: a dry run performs no storage write: it issues no write
operation and leaves the collection state identical to the state
before the run. -/
theorem dry_run_no_writes (coll : List Doc) (oracle : Text → ApiResult)
    (limit : Option Nat) (rf : Option Nat) (bs now : Nat) :
    (process_documents coll oracle limit rf bs true now).finalColl = coll ∧
    (process_documents coll oracle limit rf bs true now).writes = [] :=
  procLoop_dryRun oracle now bs limit (selectDocs coll rf) [] 0 coll [] [] []

lemma head?_dropWhile {α : Type} (p : α → Bool) (l : List α) (c : α)
    (h : (l.dropWhile p).head? = some c) : p c = false := by
  induction l with
  | nil => simp [List.dropWhile] at h
  | cons a t ih =>
    rw [List.dropWhile_cons] at h
    by_cases hp : p a = true
    · rw [if_pos hp] at h
      exact ih h
    · rw [if_neg hp] at h
      simp only [List.head?_cons, Option.some.injEq] at h
      subst h
      exact Bool.not_eq_true _ ▸ hp

lemma mem_dropWhile_of_not {α : Type} (p : α → Bool) (l : List α) (c : α)
    (hc : c ∈ l) (hp : p c = false) : c ∈ l.dropWhile p := by
  induction l with
  | nil => cases hc
  | cons a t ih =>
    rw [List.dropWhile_cons]
    by_cases ha : p a = true
    · rw [if_pos ha]
      rcases List.mem_cons.mp hc with h | h
      · subst h; rw [hp] at ha; cases ha
      · exact ih h
    · rw [if_neg ha]
      exact hc

lemma getLast?_dropWhile {α : Type} (p : α → Bool) (l : List α)
    (h : l.dropWhile p ≠ []) : (l.dropWhile p).getLast? = l.getLast? := by
  obtain ⟨s, hs⟩ := List.dropWhile_suffix (p := p) (l := l)
  conv_rhs => rw [← hs]
  exact (List.getLast?_append_of_ne_nil s h).symm

lemma stripChars_head (t : Text) (c : Char)
    (h : (stripChars t).head? = some c) : isWs c = false :=
  head?_dropWhile isWs (rstripChars t) c h

lemma stripChars_getLast (t : Text) (c : Char)
    (h : (stripChars t).getLast? = some c) : isWs c = false := by
  have hne : (rstripChars t).dropWhile isWs ≠ [] := by
    intro hnil
    rw [stripChars, hnil] at h
    cases h
  rw [stripChars, getLast?_dropWhile isWs (rstripChars t) hne] at h
  rw [rstripChars, List.getLast?_reverse] at h
  exact head?_dropWhile isWs t.reverse c h

lemma stripChars_ne_nil (t : Text) (c : Char) (hc : c ∈ t)
    (hw : isWs c = false) : stripChars t ≠ [] := by
  intro hnil
  rw [stripChars, List.dropWhile_eq_nil_iff] at hnil
  have hcr : c ∈ rstripChars t := by
    rw [rstripChars, List.mem_reverse]
    exact mem_dropWhile_of_not isWs t.reverse c (List.mem_reverse.mpr hc) hw
  rw [hnil c hcr] at hw
  cases hw

lemma process_single_empty (oracle : Text → ApiResult) (dr : Bool)
    (now : Nat) (d : Doc) (h : requestText d = []) :
    process_single_document oracle dr now d = ⟨false, none, []⟩ := by
  unfold process_single_document
  simp [h]

lemma process_single_apiFail (oracle : Text → ApiResult) (dr : Bool)
    (now : Nat) (d : Doc) (h : apiFailed (oracle (requestText d)) = true) :
    process_single_document oracle dr now d = ⟨false, none, []⟩ := by
  unfold process_single_document
  by_cases he : requestText d = []
  · simp [he]
  · simp only [if_neg he]
    cases ho : oracle (requestText d) with
    | ok c => rw [ho, apiFailed] at h; cases h
    | badStatus code body => rfl
    | malformed => rfl
    | timeout => rfl

lemma process_single_apiOk_dry (oracle : Text → ApiResult)
    (now : Nat) (d : Doc) (c : Text)
    (ho : oracle (requestText d) = ApiResult.ok c)
    (he : requestText d ≠ []) :
    process_single_document oracle true now d =
      ⟨true,
       some (build_revision d
         (normalize_quote_characters (stripChars c)) now), []⟩ := by
  unfold process_single_document
  rw [if_neg he, ho]
  rfl

lemma process_single_apiOk_live (oracle : Text → ApiResult)
    (now : Nat) (d : Doc) (c : Text)
    (ho : oracle (requestText d) = ApiResult.ok c)
    (he : requestText d ≠ []) :
    process_single_document oracle false now d =
      ⟨true,
       some (build_revision d
         (normalize_quote_characters (stripChars c)) now),
       [⟨d.id, build_revision d
         (normalize_quote_characters (stripChars c)) now⟩]⟩ := by
  unfold process_single_document
  rw [if_neg he, ho]
  rfl

lemma ws_dsts_check :
    (quoteReplacements.all fun p => !(isWs p.2)) = true := by
  rfl

lemma foldq_not_ws (ps : List (Char × Char))
    (hps : ∀ p ∈ ps, isWs p.2 = false) :
    ∀ c, isWs c = false →
      isWs (ps.foldl (fun x p => if x = p.1 then p.2 else x) c) = false := by
  induction ps with
  | nil => exact fun c hc => hc
  | cons p ps ih =>
    intro c hc
    have htail : ∀ q ∈ ps, isWs q.2 = false :=
      fun q hq => hps q (List.mem_cons_of_mem p hq)
    simp only [List.foldl_cons]
    by_cases hcp : c = p.1
    · rw [if_pos hcp]
      exact ih htail p.2 (hps p (List.mem_cons_self p ps))
    · rw [if_neg hcp]
      exact ih htail c hc

lemma qstep_not_ws (c : Char) (hc : isWs c = false) :
    isWs (qstep c) = false := by
  refine foldq_not_ws quoteReplacements ?_ c hc
  intro p hp
  have h := ws_dsts_check
  rw [List.all_eq_true] at h
  simpa using h p hp

lemma nqc_head_not_ws (t : Text) :
    (normalize_quote_characters (stripChars t)).head?.all
      (fun c => !(isWs c)) = true := by
  rw [normalize_quote_characters_eq_map, List.head?_map]
  cases hh : (stripChars t).head? with
  | none => rfl
  | some c0 =>
    rw [Option.map_some', Option.all_some]
    show (!(isWs (qstep c0))) = true
    rw [qstep_not_ws c0 (stripChars_head t c0 hh)]
    rfl

lemma nqc_getLast_not_ws (t : Text) :
    (normalize_quote_characters (stripChars t)).getLast?.all
      (fun c => !(isWs c)) = true := by
  rw [normalize_quote_characters_eq_map, List.getLast?_map]
  cases hh : (stripChars t).getLast? with
  | none => rfl
  | some c0 =>
    rw [Option.map_some', Option.all_some]
    show (!(isWs (qstep c0))) = true
    rw [qstep_not_ws c0 (stripChars_getLast t c0 hh)]
    rfl

/-- C10: every write issued by `process_single_document` targets the
processed document's identifier and stores the service's response
content with surrounding whitespace stripped and quotes normalized; in
particular the stored text neither begins nor ends with a whitespace
character. -/
theorem stored_text_is_stripped_response (oracle : Text → ApiResult)
    (dr : Bool) (now : Nat) (d : Doc) (w : WriteOp)
    (hw : w ∈ (process_single_document oracle dr now d).writes) :
    apiFailed (oracle (requestText d)) = false ∧
    w.targetId = d.id ∧
    w.rev.text = normalize_quote_characters
      (stripChars (apiContent (oracle (requestText d)))) ∧
    w.rev.text.head?.all (fun c => !(isWs c)) = true ∧
    w.rev.text.getLast?.all (fun c => !(isWs c)) = true := by
  by_cases he : requestText d = []
  · rw [process_single_empty oracle dr now d he] at hw
    cases hw
  · cases ho : oracle (requestText d) with
    | ok c =>
      cases dr with
      | true =>
        rw [process_single_apiOk_dry oracle now d c ho he] at hw
        cases hw
      | false =>
        rw [process_single_apiOk_live oracle now d c ho he] at hw
        rw [List.mem_singleton] at hw
        subst hw
        exact ⟨rfl, rfl, rfl, nqc_head_not_ws c, nqc_getLast_not_ws c⟩
    | badStatus code body =>
      rw [process_single_apiFail oracle dr now d (by rw [ho]; rfl)] at hw
      cases hw
    | malformed =>
      rw [process_single_apiFail oracle dr now d (by rw [ho]; rfl)] at hw
      cases hw
    | timeout =>
      rw [process_single_apiFail oracle dr now d (by rw [ho]; rfl)] at hw
      cases hw



/-- Witness for C10: the write issued for a concrete document stores
the stripped, quote-normalized response text. -/
theorem stored_text_is_stripped_response_witness :
    apiFailed (okOracle (requestText docW)) = false ∧
    (WriteOp.mk 1 (Revision.mk "normalized" 7 ["text"] ['o', 'k'])).targetId
      = docW.id ∧
    (WriteOp.mk 1 (Revision.mk "normalized" 7 ["text"] ['o', 'k'])).rev.text
      = normalize_quote_characters
        (stripChars (apiContent (okOracle (requestText docW)))) ∧
    (WriteOp.mk 1
      (Revision.mk "normalized" 7 ["text"] ['o', 'k'])).rev.text.head?.all
      (fun c => !(isWs c)) = true ∧
    (WriteOp.mk 1
      (Revision.mk "normalized" 7 ["text"] ['o', 'k'])).rev.text.getLast?.all
      (fun c => !(isWs c)) = true :=
  stored_text_is_stripped_response okOracle false 7 docW
    (WriteOp.mk 1 (Revision.mk "normalized" 7 ["text"] ['o', 'k']))
    (by decide)

lemma process_single_writes_target (oracle : Text → ApiResult) (dr : Bool)
    (now : Nat) (d : Doc) (w : WriteOp)
    (hw : w ∈ (process_single_document oracle dr now d).writes) :
    w.targetId = d.id ∧ (process_single_document oracle dr now d).ok = true := by
  by_cases he : requestText d = []
  · rw [process_single_empty oracle dr now d he] at hw
    cases hw
  · cases ho : oracle (requestText d) with
    | ok c =>
      cases dr with
      | true =>
        rw [process_single_apiOk_dry oracle now d c ho he] at hw
        cases hw
      | false =>
        rw [process_single_apiOk_live oracle now d c ho he] at hw ⊢
        rw [List.mem_singleton] at hw
        subst hw
        exact ⟨rfl, rfl⟩
    | badStatus code body =>
      rw [process_single_apiFail oracle dr now d (by rw [ho]; rfl)] at hw
      cases hw
    | malformed =>
      rw [process_single_apiFail oracle dr now d (by rw [ho]; rfl)] at hw
      cases hw
    | timeout =>
      rw [process_single_apiFail oracle dr now d (by rw [ho]; rfl)] at hw
      cases hw

lemma batch_writes_mem (oracle : Text → ApiResult) (dr : Bool) (now : Nat)
    (docs coll : List Doc) (w : WriteOp) :
    w ∈ (process_documents_batch oracle dr now docs coll).2.2 ↔
      ∃ d' ∈ docs, w ∈ (process_single_document oracle dr now d').writes := by
  simp [process_documents_batch, List.mem_flatten]

lemma batch_count (oracle : Text → ApiResult) (dr : Bool) (now : Nat)
    (docs coll : List Doc) :
    (process_documents_batch oracle dr now docs coll).1
      = docs.countP (fun x => (process_single_document oracle dr now x).ok) := by
  simp only [process_documents_batch, List.countP_map]
  rfl

lemma mem_applyWrite_of_ne (coll : List Doc) (w : WriteOp) (x : Doc)
    (hx : x ∈ coll) (hne : x.id ≠ w.targetId) : x ∈ applyWrite coll w := by
  induction coll with
  | nil => cases hx
  | cons d rest ih =>
    unfold applyWrite
    by_cases hd : d.id = w.targetId
    · rw [if_pos hd]
      rcases List.mem_cons.mp hx with h | h
      · subst h; exact absurd hd hne
      · exact List.mem_cons_of_mem _ h
    · rw [if_neg hd]
      rcases List.mem_cons.mp hx with h | h
      · subst h; exact List.mem_cons_self x _
      · exact List.mem_cons_of_mem _ (ih h)

lemma mem_applyWrites_of_ne (ws : List WriteOp) :
    ∀ (coll : List Doc) (x : Doc), x ∈ coll →
      (∀ w ∈ ws, x.id ≠ w.targetId) → x ∈ applyWrites coll ws := by
  induction ws with
  | nil => intro coll x hx _; exact hx
  | cons w ws ih =>
    intro coll x hx hne
    exact ih (applyWrite coll w) x
      (mem_applyWrite_of_ne coll w x hx (hne w (List.mem_cons_self w ws)))
      (fun v hv => hne v (List.mem_cons_of_mem w hv))

/-- C5: a per-document normalization failure (non-200 status, malformed
response, or timeout) leaves that document without any write, does not
prevent sibling documents of the same batch from being processed (their
writes all reach storage and their successes are all counted), and
leaves every stored document carrying the failed document's identifier
unchanged in the updated collection, hence still eligible. -/
theorem failure_isolation (oracle : Text → ApiResult) (dr : Bool)
    (now : Nat) (docs coll : List Doc) (d : Doc)
    (hmem : d ∈ docs)
    (hfail : apiFailed (oracle (requestText d)) = true)
    (hids : (docs.map Doc.id).Nodup) :
    (process_single_document oracle dr now d).ok = false ∧
    (∀ w ∈ (process_documents_batch oracle dr now docs coll).2.2,
      w.targetId ≠ d.id) ∧
    (∀ d' ∈ docs, ∀ w ∈ (process_single_document oracle dr now d').writes,
      w ∈ (process_documents_batch oracle dr now docs coll).2.2) ∧
    (process_documents_batch oracle dr now docs coll).1
      = docs.countP (fun x => (process_single_document oracle dr now x).ok) ∧
    (∀ x ∈ coll, x.id = d.id →
      x ∈ (process_documents_batch oracle dr now docs coll).2.1) := by
  have hdfail : process_single_document oracle dr now d = ⟨false, none, []⟩ :=
    process_single_apiFail oracle dr now d hfail
  have hok : (process_single_document oracle dr now d).ok = false := by
    rw [hdfail]
  have hnotarget : ∀ w ∈ (process_documents_batch oracle dr now docs coll).2.2,
      w.targetId ≠ d.id := by
    intro w hw
    obtain ⟨d', hd', hw'⟩ := (batch_writes_mem oracle dr now docs coll w).mp hw
    obtain ⟨htid, hok'⟩ := process_single_writes_target oracle dr now d' w hw'
    intro heq
    have hdd : d' = d :=
      List.inj_on_of_nodup_map hids hd' hmem (by rw [htid] at heq; exact heq)
    rw [hdd, hdfail] at hok'
    cases hok'
  refine ⟨hok, hnotarget, ?_, batch_count oracle dr now docs coll, ?_⟩
  · intro d' hd' w hw
    exact (batch_writes_mem oracle dr now docs coll w).mpr ⟨d', hd', hw⟩
  · intro x hx hxid
    have hcoll : (process_documents_batch oracle dr now docs coll).2.1
        = applyWrites coll (process_documents_batch oracle dr now docs coll).2.2 := by
      simp [process_documents_batch]
    rw [hcoll]
    refine mem_applyWrites_of_ne _ coll x hx ?_
    intro w hw
    rw [hxid]
    exact fun hxw => hnotarget w hw hxw.symm




/-- Witness for C5 on a concrete two-document batch with one failing
and one succeeding document. -/
theorem failure_isolation_witness :
    (process_single_document failOracle false 7 docB).ok = false ∧
    (∀ w ∈ (process_documents_batch failOracle false 7 [docB, docG]
      [docB, docG]).2.2, w.targetId ≠ docB.id) ∧
    (∀ d' ∈ [docB, docG],
      ∀ w ∈ (process_single_document failOracle false 7 d').writes,
      w ∈ (process_documents_batch failOracle false 7 [docB, docG]
        [docB, docG]).2.2) ∧
    (process_documents_batch failOracle false 7 [docB, docG]
      [docB, docG]).1
      = [docB, docG].countP
          (fun x => (process_single_document failOracle false 7 x).ok) ∧
    (∀ x ∈ [docB, docG], x.id = docB.id →
      x ∈ (process_documents_batch failOracle false 7 [docB, docG]
        [docB, docG]).2.1) :=
  failure_isolation failOracle false 7 [docB, docG] [docB, docG] docB
    (by decide) (by decide) (by decide)

lemma map_qstep_idem (t : Text) :
    (t.map qstep).map qstep = t.map qstep := by
  induction t with
  | nil => rfl
  | cons c t ih =>
    simp only [List.map_cons]
    rw [qstep_idem c, ih]

/-- Inversion of the text clause of the selection query. -/
lemma matchesQuery_text (rf : Option Nat) (d : Doc)
    (h : matchesQuery rf d = true) :
    ∃ s, d.text = some (BVal.str s) ∧ s.any (fun c => !(isWs c)) = true := by
  unfold matchesQuery at h
  rw [Bool.and_eq_true, Bool.and_eq_true] at h
  obtain ⟨⟨ht, _⟩, _⟩ := h
  cases htext : d.text with
  | none => rw [htext] at ht; cases ht
  | some bv =>
    cases bv with
    | str s => exact ⟨s, rfl, by rw [htext] at ht; exact ht⟩
    | other v => rw [htext] at ht; cases ht

/-- Inversion of the revisions clause of the selection query. -/
lemma matchesQuery_revisions (rf : Option Nat) (d : Doc)
    (h : matchesQuery rf d = true) :
    ∀ rs, d.revisions = some rs → hasNormalizedRevision rs = false := by
  intro rs hrs
  unfold matchesQuery at h
  rw [Bool.and_eq_true, Bool.and_eq_true] at h
  obtain ⟨⟨_, hr⟩, _⟩ := h
  rw [hrs] at hr
  simpa using hr

/-- Inversion of the resume clause of the selection query. -/
lemma matchesQuery_resume (x : Nat) (d : Doc)
    (h : matchesQuery (some x) d = true) : x < d.id := by
  unfold matchesQuery at h
  rw [Bool.and_eq_true, Bool.and_eq_true] at h
  exact of_decide_eq_true h.2

lemma mem_selectDocs (coll : List Doc) (rf : Option Nat) (d : Doc)
    (hd : d ∈ selectDocs coll rf) :
    d ∈ coll ∧ matchesQuery rf d = true := by
  have hmem : d ∈ coll.filter (matchesQuery rf) :=
    ((List.perm_insertionSort leById (coll.filter (matchesQuery rf))).mem_iff).mp hd
  exact ⟨List.mem_of_mem_filter hmem, (List.mem_filter.mp hmem).2⟩

/-- C2: the selector never yields a document whose `text` field is
absent, holds a non-string value, is empty, or is whitespace-only, and
never yields a document whose revision list contains an entry of type
`normalized`. -/
theorem selector_filter_correct (coll : List Doc) (rf : Option Nat) (d : Doc)
    (hd : d ∈ selectDocs coll rf) :
    (∃ s, d.text = some (BVal.str s) ∧ s.any (fun c => !(isWs c)) = true ∧
      s ≠ [] ∧ s.all isWs = false) ∧
    (∀ rs, d.revisions = some rs → hasNormalizedRevision rs = false) := by
  have hq := (mem_selectDocs coll rf d hd).2
  obtain ⟨s, hs, hany⟩ := matchesQuery_text rf d hq
  refine ⟨⟨s, hs, hany, ?_, ?_⟩, matchesQuery_revisions rf d hq⟩
  · obtain ⟨c, hc, _⟩ := List.any_eq_true.mp hany
    intro hnil
    rw [hnil] at hc
    cases hc
  · obtain ⟨c, hc, hcw⟩ := List.any_eq_true.mp hany
    rw [Bool.not_eq_true'] at hcw
    rw [Bool.eq_false_iff]
    intro hall
    rw [List.all_eq_true] at hall
    rw [hall c hc] at hcw
    cases hcw

/-- Witness for C2 on a concrete one-document collection. -/
theorem selector_filter_correct_witness :
    (∃ s, (Doc.mk 1 (some (BVal.str ['a'])) none).text = some (BVal.str s) ∧
      s.any (fun c => !(isWs c)) = true ∧ s ≠ [] ∧ s.all isWs = false) ∧
    (∀ rs, (Doc.mk 1 (some (BVal.str ['a'])) none).revisions = some rs →
      hasNormalizedRevision rs = false) :=
  selector_filter_correct [Doc.mk 1 (some (BVal.str ['a'])) none] none
    (Doc.mk 1 (some (BVal.str ['a'])) none) (by decide)

/-- C3: with a valid resume bound `x`, every yielded document has an
identifier strictly greater than `x`, and (over a collection with
pairwise distinct identifiers, as storage guarantees) the yielded
sequence is in strictly ascending identifier order. -/
theorem resume_monotone (coll : List Doc) (x : Nat)
    (hids : (coll.map Doc.id).Nodup) :
    (∀ d ∈ selectDocs coll (some x), x < d.id) ∧
    List.Pairwise (fun a b => a.id < b.id) (selectDocs coll (some x)) := by
  constructor
  · intro d hd
    exact matchesQuery_resume x d (mem_selectDocs coll (some x) d hd).2
  · have hsorted : List.Pairwise leById (selectDocs coll (some x)) :=
      List.sorted_insertionSort leById (coll.filter (matchesQuery (some x)))
    have hsub : ((coll.filter (matchesQuery (some x))).map Doc.id).Sublist
        (coll.map Doc.id) :=
      (List.filter_sublist coll).map Doc.id
    have hnodup : ((selectDocs coll (some x)).map Doc.id).Nodup := by
      have hperm : List.Perm ((selectDocs coll (some x)).map Doc.id)
          ((coll.filter (matchesQuery (some x))).map Doc.id) :=
        (List.perm_insertionSort leById (coll.filter (matchesQuery (some x)))).map Doc.id
      exact hperm.nodup_iff.mpr (hids.sublist hsub)
    have hne : List.Pairwise (fun a b : Doc => a.id ≠ b.id)
        (selectDocs coll (some x)) := List.pairwise_map.mp hnodup
    exact (hsorted.and hne).imp (fun h => Nat.lt_of_le_of_ne h.1 h.2)

/-- Witness for C3 on a concrete two-document collection. -/
theorem resume_monotone_witness :
    (∀ d ∈ selectDocs [Doc.mk 1 (some (BVal.str ['a'])) none,
        Doc.mk 2 (some (BVal.str ['b'])) none] (some 1), 1 < d.id) ∧
    List.Pairwise (fun a b => a.id < b.id)
      (selectDocs [Doc.mk 1 (some (BVal.str ['a'])) none,
        Doc.mk 2 (some (BVal.str ['b'])) none] (some 1)) :=
  resume_monotone [Doc.mk 1 (some (BVal.str ['a'])) none,
    Doc.mk 2 (some (BVal.str ['b'])) none] 1 (by decide)

/-- C7: the quote normalizer is idempotent: applying
`normalize_quote_characters` twice agrees with applying it once, on
every input text. (It is a total Lean function, hence pure with no
failure mode.) -/
theorem quote_normalizer_idempotent (t : Text) :
    normalize_quote_characters (normalize_quote_characters t)
      = normalize_quote_characters t := by
  rw [normalize_quote_characters_eq_map t,
    normalize_quote_characters_eq_map (t.map qstep)]
  exact map_qstep_idem t

lemma batch_count_le (oracle : Text → ApiResult) (dr : Bool) (now : Nat)
    (docs coll : List Doc) :
    (process_documents_batch oracle dr now docs coll).1 ≤ docs.length := by
  rw [batch_count]
  exact List.countP_le_length _

lemma limitReached_false (L processed : Nat)
    (h : limitReached (some L) processed = false) : processed < L := by
  unfold limitReached at h
  exact Nat.lt_of_not_le (of_decide_eq_false h)

lemma finishRun_processed_le (oracle : Text → ApiResult) (dr : Bool)
    (now : Nat) (batch : List Doc) (processed : Nat) (coll : List Doc)
    (ws : List WriteOp) (evs gts : List Nat) :
    (finishRun oracle dr now batch processed coll ws evs gts).processed
      ≤ processed + batch.length := by
  unfold finishRun
  by_cases hb : batch = []
  · rw [if_pos hb]
    exact Nat.le_add_right processed batch.length
  · rw [if_neg hb]
    exact Nat.add_le_add_left (batch_count_le oracle dr now batch coll) processed

lemma procLoop_limit_bound (oracle : Text → ApiResult) (dr : Bool)
    (now bs L : Nat) (hbs : 1 ≤ bs) (remaining : List Doc) :
    ∀ batch processed coll ws evs gts,
      processed < L + bs →
      (batch ≠ [] → processed < L) →
      batch.length < bs →
      (procLoop oracle dr now bs (some L) remaining batch processed coll ws
        evs gts).processed < L + bs := by
  induction remaining with
  | nil =>
    intro batch processed coll ws evs gts h1 h2 h3
    show (finishRun oracle dr now batch processed coll ws evs gts).processed
      < L + bs
    have hle := finishRun_processed_le oracle dr now batch processed coll ws
      evs gts
    by_cases hb : batch = []
    · subst hb
      simp only [List.length_nil, Nat.add_zero] at hle
      omega
    · have hp := h2 hb
      omega
  | cons d rest ih =>
    intro batch processed coll ws evs gts h1 h2 h3
    unfold procLoop
    by_cases hl : limitReached (some L) processed = true
    · rw [if_pos hl]
      have hle := finishRun_processed_le oracle dr now batch processed coll
        ws evs gts
      by_cases hb : batch = []
      · subst hb
        simp only [List.length_nil, Nat.add_zero] at hle
        omega
      · have hp := h2 hb
        omega
    · rw [if_neg hl]
      have hp : processed < L :=
        limitReached_false L processed (Bool.not_eq_true _ ▸ hl)
      by_cases hflush : bs ≤ (batch ++ [d]).length
      · rw [if_pos hflush]
        refine ih [] _ _ _ _ _ ?_ (fun hc => absurd rfl hc) hbs
        have hcount := batch_count_le oracle dr now (batch ++ [d]) coll
        have hlen : (batch ++ [d]).length = batch.length + 1 := by
          simp
        omega
      · rw [if_neg hflush]
        refine ih (batch ++ [d]) processed coll ws evs gts h1
          (fun _ => hp) ?_
        exact Nat.lt_of_not_le hflush

/-- C4 counterexample: with limit 1, batch size 2 and two eligible
documents, the run processes 2 documents, exceeding the limit — the
claim that the number of processed documents never exceeds the limit
for every batch size is false. -/
theorem limit_cap_counterexample :
    ¬ ((process_documents [docB, docG] okOracle (some 1) none 2 false
      0).processed ≤ 1) := by
  decide

/-- C4 amended: the loop stops drawing once the success count reaches
the limit `L`, but the count is only updated at group boundaries, so
the number of processed documents is bounded by `L + bs - 1` (strictly
below `L + bs`) rather than by `L`. -/
theorem limit_cap_amended (coll : List Doc) (oracle : Text → ApiResult)
    (rf : Option Nat) (bs now L : Nat) (dr : Bool) (hbs : 1 ≤ bs) :
    (process_documents coll oracle (some L) rf bs dr now).processed
      < L + bs := by
  refine procLoop_limit_bound oracle dr now bs L hbs
    (selectDocs coll rf) [] 0 coll [] [] [] ?_ (fun hc => absurd rfl hc) hbs
  omega

/-- Witness for C4's amended bound at a concrete input. -/
theorem limit_cap_amended_witness :
    (process_documents [docB, docG] okOracle (some 1) none 2 false
      0).processed < 1 + 2 :=
  limit_cap_amended [docB, docG] okOracle none 2 0 1 false (by decide)

lemma finishRun_reports (oracle : Text → ApiResult) (dr : Bool) (now : Nat)
    (batch : List Doc) (processed : Nat) (coll : List Doc)
    (ws : List WriteOp) (evs gts : List Nat) :
    (finishRun oracle dr now batch processed coll ws evs
      gts).progressReports = evs ∧
    (finishRun oracle dr now batch processed coll ws evs gts).groupTotals
      = gts := by
  unfold finishRun
  by_cases hb : batch = []
  · rw [if_pos hb]
    exact ⟨rfl, rfl⟩
  · rw [if_neg hb]
    exact ⟨rfl, rfl⟩

lemma procLoop_reports (oracle : Text → ApiResult) (dr : Bool)
    (now bs : Nat) (limit : Option Nat) (remaining : List Doc) :
    ∀ batch processed coll ws evs gts,
      (∀ n ∈ evs, (0 < bs ∧ n % bs = 0) ∧ n ∈ gts) →
      (∀ n ∈ gts, 0 < bs → n % bs = 0 → n ∈ evs) →
      (∀ n ∈ (procLoop oracle dr now bs limit remaining batch processed coll
          ws evs gts).progressReports,
        (0 < bs ∧ n % bs = 0) ∧
        n ∈ (procLoop oracle dr now bs limit remaining batch processed coll
          ws evs gts).groupTotals) ∧
      (∀ n ∈ (procLoop oracle dr now bs limit remaining batch processed coll
          ws evs gts).groupTotals,
        0 < bs → n % bs = 0 →
        n ∈ (procLoop oracle dr now bs limit remaining batch processed coll
          ws evs gts).progressReports) := by
  induction remaining with
  | nil =>
    intro batch processed coll ws evs gts hinv1 hinv2
    have hnil : procLoop oracle dr now bs limit [] batch processed coll ws
        evs gts = finishRun oracle dr now batch processed coll ws evs gts :=
      rfl
    obtain ⟨he, hg⟩ := finishRun_reports oracle dr now batch processed coll
      ws evs gts
    rw [hnil, he, hg]
    exact ⟨hinv1, hinv2⟩
  | cons d rest ih =>
    intro batch processed coll ws evs gts hinv1 hinv2
    unfold procLoop
    by_cases hl : limitReached limit processed = true
    · rw [if_pos hl]
      obtain ⟨he, hg⟩ := finishRun_reports oracle dr now batch processed coll
        ws evs gts
      rw [he, hg]
      exact ⟨hinv1, hinv2⟩
    · rw [if_neg hl]
      by_cases hflush : bs ≤ (batch ++ [d]).length
      · rw [if_pos hflush]
        refine ih [] _ _ _ _ _ ?_ ?_
        · intro n hn
          rcases List.mem_append.mp hn with h | h
          · exact ⟨(hinv1 n h).1, List.mem_append_left _ (hinv1 n h).2⟩
          · by_cases hcond : 0 < bs ∧
                (processed + (process_documents_batch oracle dr now
                  (batch ++ [d]) coll).1) % bs = 0
            · rw [if_pos hcond] at h
              rw [List.mem_singleton] at h
              subst h
              exact ⟨hcond, List.mem_append_right _ (List.mem_singleton.mpr rfl)⟩
            · rw [if_neg hcond] at h
              cases h
        · intro n hn hbs hmod
          rcases List.mem_append.mp hn with h | h
          · exact List.mem_append_left _ (hinv2 n h hbs hmod)
          · rw [List.mem_singleton] at h
            subst h
            rw [if_pos ⟨hbs, hmod⟩]
            exact List.mem_append_right _ (List.mem_singleton.mpr rfl)
      · rw [if_neg hflush]
        exact ih (batch ++ [d]) processed coll ws evs gts hinv1 hinv2

/-- C9 counterexample: with batch size 2 and a group in which one of the
two documents fails, the group completes (the group totals record it)
but no running total is reported, because the total 1 is not a multiple
of the batch size — the claim that the running total is reported after
each group for every mix of successes and failures is false. -/
theorem progress_report_counterexample :
    (process_documents [docB, docG] failOracle none none 2 false
      0).groupTotals = [1] ∧
    (process_documents [docB, docG] failOracle none none 2 false
      0).progressReports = [] := by
  decide

/-- C9 amended: a running total is printed exactly after those
full-size groups whose running success total is a positive multiple of
the batch size; groups with other totals (in particular groups with
failures) and the final partial group produce no report. -/
theorem progress_report_amended (coll : List Doc)
    (oracle : Text → ApiResult) (limit : Option Nat) (rf : Option Nat)
    (bs : Nat) (dr : Bool) (now : Nat) :
    (∀ n ∈ (process_documents coll oracle limit rf bs dr
        now).progressReports,
      (0 < bs ∧ n % bs = 0) ∧
      n ∈ (process_documents coll oracle limit rf bs dr now).groupTotals) ∧
    (∀ n ∈ (process_documents coll oracle limit rf bs dr now).groupTotals,
      0 < bs → n % bs = 0 →
      n ∈ (process_documents coll oracle limit rf bs dr
        now).progressReports) :=
  procLoop_reports oracle dr now bs limit (selectDocs coll rf) [] 0 coll
    [] [] [] (fun n hn => absurd hn (List.not_mem_nil n))
    (fun n hn => absurd hn (List.not_mem_nil n))

/-- Witness for C9's amended characterization: on a run whose single
group's total is a multiple of the batch size, the total is reported. -/
theorem progress_report_amended_witness :
    1 ∈ (process_documents [docG] okOracle none none 1 false
      0).progressReports :=
  (progress_report_amended [docG] okOracle none none 1 false 0).2 1
    (by decide) (by decide) (by decide)

lemma countP_set_eq {α : Type} (p : α → Bool) (l : List α) :
    ∀ (i : Nat) (a b : α), l[i]? = some a →
      (l.set i b).countP p + (if p a then 1 else 0)
        = l.countP p + (if p b then 1 else 0) := by
  induction l with
  | nil => intro i a b h; cases h
  | cons x t ih =>
    intro i a b h
    cases i with
    | zero =>
      simp only [List.getElem?_cons_zero, Option.some.injEq] at h
      subst h
      simp only [List.set_cons_zero, List.countP_cons]
      omega
    | succ i =>
      simp only [List.getElem?_cons_succ] at h
      simp only [List.set_cons_succ, List.countP_cons]
      have := ih i a b h
      omega

lemma countP_replicate_pending (k : Nat) :
    (List.replicate k TaskPhase.pending).countP
      (fun t => t == TaskPhase.running) = 0 := by
  induction k with
  | zero => rfl
  | succ k ih =>
    rw [List.replicate_succ, List.countP_cons]
    simp [ih]

lemma semStep_invariant (conc : Nat) (s s' : SemState)
    (hstep : SemStep s s') (hinv : inFlight s + s.avail = conc) :
    inFlight s' + s'.avail = conc := by
  cases hstep with
  | spawn k =>
    unfold inFlight at *
    simp only [List.countP_append, countP_replicate_pending] at *
    omega
  | acquire i a hi ha =>
    unfold inFlight at *
    have h := countP_set_eq (fun t => t == TaskPhase.running) s.tasks i
      TaskPhase.pending TaskPhase.running hi
    simp at h
    dsimp only
    omega
  | release i hi =>
    unfold inFlight at *
    have h := countP_set_eq (fun t => t == TaskPhase.running) s.tasks i
      TaskPhase.running TaskPhase.finished hi
    simp at h
    dsimp only
    omega

/-- C8: in every state reachable during a run that starts with a
semaphore of `conc` permits (created once for the whole run, shared by
every group), at most `conc` tasks are inside the semaphore region at
once — hence at most `conc` service calls are in flight, regardless of
how many groups are spawned or how many tasks they hold. -/
theorem concurrency_bound (conc n : Nat) (s : SemState)
    (h : Relation.ReflTransGen SemStep (initSem conc n) s) :
    inFlight s ≤ conc := by
  have hinv : inFlight s + s.avail = conc := by
    induction h with
    | refl =>
      unfold inFlight initSem
      simp [countP_replicate_pending]
    | tail hsub hstep ih => exact semStep_invariant conc _ _ hstep ih
  omega

/-- Witness for C8: after one admission step from a concrete initial
state, the in-flight count is within the bound. -/
theorem concurrency_bound_witness :
    inFlight ⟨2, (List.replicate 5 TaskPhase.pending).set 0
      TaskPhase.running⟩ ≤ 3 :=
  concurrency_bound 3 5
    ⟨2, (List.replicate 5 TaskPhase.pending).set 0 TaskPhase.running⟩
    (Relation.ReflTransGen.single
      (SemStep.acquire (initSem 3 5) 0 2 (by decide) rfl))

lemma singleWrites_append (oracle : Text → ApiResult) (dr : Bool)
    (now : Nat) (a b : List Doc) :
    singleWrites oracle dr now (a ++ b)
      = singleWrites oracle dr now a ++ singleWrites oracle dr now b := by
  simp [singleWrites]

lemma singleSucc_append (oracle : Text → ApiResult) (dr : Bool)
    (now : Nat) (a b : List Doc) :
    singleSucc oracle dr now (a ++ b)
      = singleSucc oracle dr now a + singleSucc oracle dr now b := by
  simp [singleSucc, List.countP_append]

lemma applyWrites_append (coll : List Doc) (u v : List WriteOp) :
    applyWrites coll (u ++ v) = applyWrites (applyWrites coll u) v := by
  simp [applyWrites, List.foldl_append]

lemma procLoop_none (oracle : Text → ApiResult) (dr : Bool) (now bs : Nat)
    (remaining : List Doc) :
    ∀ batch processed coll ws evs gts, ∃ evs2 gts2,
      procLoop oracle dr now bs none remaining batch processed coll ws evs
          gts
        = ⟨processed + singleSucc oracle dr now (batch ++ remaining),
           applyWrites coll (singleWrites oracle dr now (batch ++ remaining)),
           ws ++ singleWrites oracle dr now (batch ++ remaining),
           evs2, gts2⟩ := by
  induction remaining with
  | nil =>
    intro batch processed coll ws evs gts
    refine ⟨evs, gts, ?_⟩
    have hnil : procLoop oracle dr now bs none [] batch processed coll ws
        evs gts = finishRun oracle dr now batch processed coll ws evs gts :=
      rfl
    rw [hnil, List.append_nil]
    unfold finishRun
    by_cases hb : batch = []
    · subst hb
      simp [singleSucc, singleWrites, applyWrites]
    · rw [if_neg hb]
      rfl
  | cons d rest ih =>
    intro batch processed coll ws evs gts
    unfold procLoop
    rw [show limitReached none processed = false from rfl]
    simp only [Bool.false_eq_true, if_false]
    by_cases hflush : bs ≤ (batch ++ [d]).length
    · rw [if_pos hflush]
      obtain ⟨e2, g2, hrec⟩ := ih []
        (processed + singleSucc oracle dr now (batch ++ [d]))
        (applyWrites coll (singleWrites oracle dr now (batch ++ [d])))
        (ws ++ singleWrites oracle dr now (batch ++ [d]))
        (evs ++ (if 0 < bs ∧
          (processed + singleSucc oracle dr now (batch ++ [d])) % bs = 0
          then [processed + singleSucc oracle dr now (batch ++ [d])]
          else []))
        (gts ++ [processed + singleSucc oracle dr now (batch ++ [d])])
      refine ⟨e2, g2, hrec.trans ?_⟩
      have hsplit : batch ++ d :: rest = (batch ++ [d]) ++ rest := by
        simp
      rw [hsplit, singleSucc_append oracle dr now (batch ++ [d]) rest,
        singleWrites_append oracle dr now (batch ++ [d]) rest,
        applyWrites_append, List.nil_append, Nat.add_assoc,
        List.append_assoc]
    · rw [if_neg hflush]
      obtain ⟨e2, g2, hrec⟩ := ih (batch ++ [d]) processed coll ws evs gts
      refine ⟨e2, g2, hrec.trans ?_⟩
      have hsplit : (batch ++ [d]) ++ rest = batch ++ d :: rest := by
        simp
      rw [hsplit]

lemma matchesQuery_requestText (rf : Option Nat) (d : Doc)
    (hq : matchesQuery rf d = true) : requestText d ≠ [] := by
  obtain ⟨s, hs, hany⟩ := matchesQuery_text rf d hq
  obtain ⟨c, hc, hcw⟩ := List.any_eq_true.mp hany
  have hcf : isWs c = false := by simpa using hcw
  unfold requestText
  rw [hs]
  exact stripChars_ne_nil s c hc hcf

lemma process_single_ok_of (oracle : Text → ApiResult) (now : Nat)
    (d : Doc) (hok : ∀ t, ∃ c, oracle t = ApiResult.ok c)
    (hne : requestText d ≠ []) :
    process_single_document oracle false now d
      = ⟨true, some (okWrite oracle now d).rev, [okWrite oracle now d]⟩ := by
  obtain ⟨c, hc⟩ := hok (requestText d)
  rw [process_single_apiOk_live oracle now d c hc hne]
  unfold okWrite
  rw [hc]
  rfl

lemma singleWrites_all_ok (oracle : Text → ApiResult) (now : Nat)
    (docs : List Doc) (hok : ∀ t, ∃ c, oracle t = ApiResult.ok c)
    (helig : ∀ d ∈ docs, requestText d ≠ []) :
    singleWrites oracle false now docs = docs.map (okWrite oracle now) ∧
    singleSucc oracle false now docs = docs.length := by
  induction docs with
  | nil => exact ⟨rfl, rfl⟩
  | cons d t ih =>
    obtain ⟨hw, hs⟩ := ih (fun x hx => helig x (List.mem_cons_of_mem d hx))
    have hd := process_single_ok_of oracle now d hok
      (helig d (List.mem_cons_self d t))
    constructor
    · unfold singleWrites at *
      simp only [List.map_cons, List.flatten_cons, hd, hw]
      rfl
    · unfold singleSucc at *
      simp only [List.map_cons, List.countP_cons, hd, hs]
      rfl

lemma map_noop (f : Doc → Doc) (l : List Doc) (h : ∀ x ∈ l, f x = x) :
    l.map f = l := by
  induction l with
  | nil => rfl
  | cons a t ih =>
    simp only [List.map_cons]
    rw [h a (List.mem_cons_self a t),
      ih (fun x hx => h x (List.mem_cons_of_mem a hx))]

lemma map_map_eq_doc (f g h : Doc → Doc) (coll : List Doc)
    (hp : ∀ x ∈ coll, g (f x) = h x) : (coll.map f).map g = coll.map h := by
  induction coll with
  | nil => rfl
  | cons d t ih =>
    simp only [List.map_cons]
    rw [hp d (List.mem_cons_self d t),
      ih (fun x hx => hp x (List.mem_cons_of_mem d hx))]

lemma map_id_of_preserve (f : Doc → Doc) (hf : ∀ x, (f x).id = x.id)
    (coll : List Doc) : (coll.map f).map Doc.id = coll.map Doc.id := by
  induction coll with
  | nil => rfl
  | cons d t ih => simp only [List.map_cons, hf, ih]

lemma applyWrite_eq_map (w : WriteOp) (coll : List Doc)
    (hcoll : (coll.map Doc.id).Nodup) :
    applyWrite coll w
      = coll.map
          (fun x => if x.id = w.targetId then pushDoc x w.rev else x) := by
  induction coll with
  | nil => rfl
  | cons d rest ih =>
    rw [List.map_cons] at hcoll
    obtain ⟨hni, hnd⟩ := List.nodup_cons.mp hcoll
    unfold applyWrite
    by_cases hd : d.id = w.targetId
    · rw [if_pos hd]
      simp only [List.map_cons, if_pos hd]
      congr 1
      refine (map_noop _ rest ?_).symm
      intro x hx
      rw [if_neg]
      intro hxw
      apply hni
      rw [hd, ← hxw]
      exact List.mem_map_of_mem Doc.id hx
    · rw [if_neg hd]
      simp only [List.map_cons, if_neg hd]
      congr 1
      exact ih hnd

lemma applyAllTo_nil (x : Doc) : applyAllTo [] x = x := rfl

lemma applyWrites_eq_map (ws : List WriteOp) :
    ∀ coll : List Doc, (coll.map Doc.id).Nodup →
      (ws.map WriteOp.targetId).Nodup →
      applyWrites coll ws = coll.map (applyAllTo ws) := by
  induction ws with
  | nil =>
    intro coll _ _
    exact (map_noop (applyAllTo []) coll (fun x _ => rfl)).symm
  | cons w ws ih =>
    intro coll hcoll hws
    rw [List.map_cons] at hws
    obtain ⟨hwni, hwnd⟩ := List.nodup_cons.mp hws
    have hstep : applyWrites coll (w :: ws)
        = applyWrites (applyWrite coll w) ws := rfl
    rw [hstep, applyWrite_eq_map w coll hcoll]
    have hgid : ∀ x : Doc,
        ((fun x => if x.id = w.targetId then pushDoc x w.rev else x) x).id
          = x.id := by
      intro x
      by_cases hx : x.id = w.targetId
      · simp only [if_pos hx]
        rfl
      · simp only [if_neg hx]
    rw [ih (coll.map
        (fun x => if x.id = w.targetId then pushDoc x w.rev else x))
      (by rw [map_id_of_preserve _ hgid coll]; exact hcoll) hwnd]
    apply map_map_eq_doc
    intro x hx
    by_cases hx1 : x.id = w.targetId
    · rw [if_pos hx1]
      unfold applyAllTo writeFor
      have hLfind : ws.find?
          (fun w' => w'.targetId == (pushDoc x w.rev).id) = none := by
        rw [List.find?_eq_none]
        intro a ha hbeq
        apply hwni
        have haid : a.targetId = x.id := by
          have : (pushDoc x w.rev).id = x.id := rfl
          rw [this] at hbeq
          exact of_decide_eq_true hbeq
        rw [← hx1, ← haid]
        exact List.mem_map_of_mem WriteOp.targetId ha
      have hRfind : (w :: ws).find? (fun w' => w'.targetId == x.id)
          = some w :=
        List.find?_cons_of_pos _ (by simp [hx1])
      rw [hLfind, hRfind]
    · rw [if_neg hx1]
      unfold applyAllTo writeFor
      have hRfind : (w :: ws).find? (fun w' => w'.targetId == x.id)
          = ws.find? (fun w' => w'.targetId == x.id) :=
        List.find?_cons_of_neg _
          (by simp only [beq_iff_eq]; exact fun h => hx1 h.symm)
      rw [hRfind]

lemma selectDocs_ids_nodup (coll : List Doc) (rf : Option Nat)
    (hids : (coll.map Doc.id).Nodup) :
    ((selectDocs coll rf).map Doc.id).Nodup := by
  have hsub : ((coll.filter (matchesQuery rf)).map Doc.id).Sublist
      (coll.map Doc.id) :=
    (List.filter_sublist coll).map Doc.id
  have hperm : List.Perm ((selectDocs coll rf).map Doc.id)
      ((coll.filter (matchesQuery rf)).map Doc.id) :=
    (List.perm_insertionSort leById (coll.filter (matchesQuery rf))).map
      Doc.id
  exact hperm.nodup_iff.mpr (hids.sublist hsub)

lemma okWrite_targets (oracle : Text → ApiResult) (now : Nat)
    (docs : List Doc) :
    (docs.map (okWrite oracle now)).map WriteOp.targetId
      = docs.map Doc.id := by
  induction docs with
  | nil => rfl
  | cons d t ih =>
    simp only [List.map_cons, ih]
    rfl

lemma find?_okWrite (oracle : Text → ApiResult) (now : Nat)
    (l : List Doc) (d : Doc) (hd : d ∈ l)
    (hnodup : (l.map Doc.id).Nodup) :
    (l.map (okWrite oracle now)).find? (fun w => w.targetId == d.id)
      = some (okWrite oracle now d) := by
  induction l with
  | nil => cases hd
  | cons a t ih =>
    rw [List.map_cons] at hnodup
    obtain ⟨hni, hnd⟩ := List.nodup_cons.mp hnodup
    rcases List.mem_cons.mp hd with h | h
    · subst h
      rw [List.map_cons]
      exact List.find?_cons_of_pos _ (by simp [okWrite])
    · rw [List.map_cons]
      have hpred : ¬ ((okWrite oracle now a).targetId == d.id) = true := by
        simp only [okWrite, beq_iff_eq]
        intro heq
        apply hni
        rw [heq]
        exact List.mem_map_of_mem Doc.id h
      rw [List.find?_cons_of_neg
        (p := fun (w : WriteOp) => w.targetId == d.id) _ hpred]
      exact ih h hnd

lemma find?_okWrite_none (oracle : Text → ApiResult) (now : Nat)
    (l : List Doc) (x : Doc) (hx : x.id ∉ l.map Doc.id) :
    (l.map (okWrite oracle now)).find? (fun w => w.targetId == x.id)
      = none := by
  rw [List.find?_eq_none]
  intro w hw
  rw [List.mem_map] at hw
  obtain ⟨d0, hd0, rfl⟩ := hw
  simp only [okWrite, beq_iff_eq]
  intro heq
  apply hx
  rw [← heq]
  exact List.mem_map_of_mem Doc.id hd0

lemma matchesQuery_false_of_norm (rf : Option Nat) (d : Doc)
    (rs : List Revision) (hrs : d.revisions = some rs)
    (hn : hasNormalizedRevision rs = true) :
    matchesQuery rf d = false := by
  unfold matchesQuery
  rw [hrs]
  simp [hn]

lemma matchesQuery_push_false (rf : Option Nat) (x : Doc)
    (rev : Revision) (hrev : rev.revision_type = "normalized") :
    matchesQuery rf (pushDoc x rev) = false := by
  refine matchesQuery_false_of_norm rf (pushDoc x rev)
    ((x.revisions.getD []) ++ [rev]) rfl ?_
  unfold hasNormalizedRevision
  simp [List.any_append, hrev]

lemma countP_push_normalized (d : Doc) (rev : Revision)
    (hrev : rev.revision_type = "normalized")
    (hq : matchesQuery none d = true) :
    ((pushDoc d rev).revisions.getD []).countP
      (fun rv => rv.revision_type == "normalized") = 1 := by
  have hpush : (pushDoc d rev).revisions.getD []
      = (d.revisions.getD []) ++ [rev] := rfl
  rw [hpush, List.countP_append]
  have hc0 : (d.revisions.getD []).countP
      (fun rv => rv.revision_type == "normalized") = 0 := by
    cases hrevs : d.revisions with
    | none => rfl
    | some rs =>
      have hnorm := matchesQuery_revisions none d hq rs hrevs
      simp only [Option.getD_some]
      rw [List.countP_eq_zero]
      intro r hr
      unfold hasNormalizedRevision at hnorm
      exact (List.any_eq_false.mp hnorm) r hr
  rw [hc0]
  simp [List.countP_cons, hrev]

lemma run_none (coll : List Doc) (oracle : Text → ApiResult)
    (rf : Option Nat) (bs : Nat) (dr : Bool) (now : Nat) :
    ∃ evs2 gts2,
      process_documents coll oracle none rf bs dr now
        = ⟨singleSucc oracle dr now (selectDocs coll rf),
           applyWrites coll (singleWrites oracle dr now (selectDocs coll rf)),
           singleWrites oracle dr now (selectDocs coll rf),
           evs2, gts2⟩ := by
  obtain ⟨e2, g2, h⟩ := procLoop_none oracle dr now bs (selectDocs coll rf)
    [] 0 coll [] [] []
  refine ⟨e2, g2, ?_⟩
  unfold process_documents
  rw [h]
  simp

lemma run_of_select_nil (coll : List Doc) (oracle : Text → ApiResult)
    (limit rf : Option Nat) (bs : Nat) (dr : Bool) (now : Nat)
    (h : selectDocs coll rf = []) :
    process_documents coll oracle limit rf bs dr now
      = ⟨0, coll, [], [], []⟩ := by
  unfold process_documents
  rw [h]
  rfl

/-- C1: over a collection with pairwise distinct identifiers and an
always-successful service, one full live run (no limit, no resume
bound) leaves every document selected at its start with exactly one
revision of type `normalized`; afterwards the selector yields the empty
sequence, so a second identical run issues no write and leaves the
collection state unchanged. -/
theorem pipeline_idempotent (coll : List Doc) (oracle : Text → ApiResult)
    (now bs : Nat)
    (hids : (coll.map Doc.id).Nodup)
    (hok : ∀ t, ∃ c, oracle t = ApiResult.ok c) :
    (∀ d ∈ selectDocs coll none,
      ∃ d2 ∈ (process_documents coll oracle none none bs false
          now).finalColl,
        d2.id = d.id ∧
        ((d2.revisions.getD []).countP
          (fun rv => rv.revision_type == "normalized")) = 1) ∧
    selectDocs
      (process_documents coll oracle none none bs false now).finalColl none
      = [] ∧
    (process_documents
      (process_documents coll oracle none none bs false now).finalColl
      oracle none none bs false now).writes = [] ∧
    (process_documents
      (process_documents coll oracle none none bs false now).finalColl
      oracle none none bs false now).finalColl
      = (process_documents coll oracle none none bs false now).finalColl
    := by
  obtain ⟨e2, g2, hrun⟩ := run_none coll oracle none bs false now
  have helig : ∀ d ∈ selectDocs coll none, matchesQuery none d = true :=
    fun d hd => (mem_selectDocs coll none d hd).2
  have hreq : ∀ d ∈ selectDocs coll none, requestText d ≠ [] :=
    fun d hd => matchesQuery_requestText none d (helig d hd)
  obtain ⟨hW, _⟩ := singleWrites_all_ok oracle now (selectDocs coll none)
    hok hreq
  have hsel_nodup : ((selectDocs coll none).map Doc.id).Nodup :=
    selectDocs_ids_nodup coll none hids
  have hWids : ((singleWrites oracle false now
      (selectDocs coll none)).map WriteOp.targetId).Nodup := by
    rw [hW, okWrite_targets]
    exact hsel_nodup
  have hfc : (process_documents coll oracle none none bs false
      now).finalColl
      = coll.map (applyAllTo
          (singleWrites oracle false now (selectDocs coll none))) := by
    rw [hrun]
    exact applyWrites_eq_map _ coll hids hWids
  have hApush : ∀ d ∈ selectDocs coll none,
      applyAllTo (singleWrites oracle false now (selectDocs coll none)) d
        = pushDoc d (okWrite oracle now d).rev := by
    intro d hd
    unfold applyAllTo writeFor
    rw [hW, find?_okWrite oracle now (selectDocs coll none) d hd hsel_nodup]
  have hmq : ∀ y ∈ (process_documents coll oracle none none bs false
      now).finalColl, matchesQuery none y = false := by
    rw [hfc]
    intro y hy
    rw [List.mem_map] at hy
    obtain ⟨x, hxc, rfl⟩ := hy
    by_cases hqx : matchesQuery none x = true
    · have hxe : x ∈ selectDocs coll none := by
        unfold selectDocs
        rw [(List.perm_insertionSort leById
          (coll.filter (matchesQuery none))).mem_iff]
        exact List.mem_filter.mpr ⟨hxc, hqx⟩
      rw [hApush x hxe]
      exact matchesQuery_push_false none x (okWrite oracle now x).rev rfl
    · have hxid : x.id ∉ (selectDocs coll none).map Doc.id := by
        intro hmem
        rw [List.mem_map] at hmem
        obtain ⟨d0, hd0, hid0⟩ := hmem
        have hd0x : d0 = x :=
          List.inj_on_of_nodup_map hids
            (mem_selectDocs coll none d0 hd0).1 hxc hid0
        rw [hd0x] at hd0
        exact hqx (mem_selectDocs coll none x hd0).2
      have hAx : applyAllTo
          (singleWrites oracle false now (selectDocs coll none)) x = x := by
        unfold applyAllTo writeFor
        rw [hW, find?_okWrite_none oracle now (selectDocs coll none) x hxid]
      rw [hAx]
      exact Bool.eq_false_iff.mpr hqx
  have hsel2 : selectDocs
      (process_documents coll oracle none none bs false now).finalColl none
      = [] := by
    unfold selectDocs
    have hfil : (process_documents coll oracle none none bs false
        now).finalColl.filter (matchesQuery none) = [] := by
      rw [List.filter_eq_nil_iff]
      intro a ha
      rw [hmq a ha]
      exact Bool.false_ne_true
    rw [hfil]
    rfl
  have hrun2 : process_documents
      (process_documents coll oracle none none bs false now).finalColl
      oracle none none bs false now
      = ⟨0, (process_documents coll oracle none none bs false
          now).finalColl, [], [], []⟩ :=
    run_of_select_nil _ oracle none none bs false now hsel2
  refine ⟨?_, hsel2, ?_, ?_⟩
  · intro d hd
    have hdc : d ∈ coll := (mem_selectDocs coll none d hd).1
    refine ⟨applyAllTo
      (singleWrites oracle false now (selectDocs coll none)) d, ?_, ?_, ?_⟩
    · rw [hfc]
      exact List.mem_map_of_mem _ hdc
    · rw [hApush d hd]
      rfl
    · rw [hApush d hd]
      exact countP_push_normalized d (okWrite oracle now d).rev rfl
        (helig d hd)
  · rw [hrun2]
  · rw [hrun2]

/-- Witness for C1: after a full successful run over a concrete
two-document collection, the selector yields nothing. -/
theorem pipeline_idempotent_witness :
    selectDocs (process_documents [docB, docG] okOracle none none 2 false
      0).finalColl none = [] :=
  (pipeline_idempotent [docB, docG] okOracle 0 2 (by decide)
    (fun t => ⟨[' ', 'o', 'k', ' '], rfl⟩)).2.1

end StructuredArticles
